import Mathlib

/-!
Verification of the subtitle parsing and retrieval pipeline of the
youtube-subtitles-mcp repository (src: `yt-dlp.ts` and its older variant).

Strings are modelled as `List Char`.  JavaScript numbers are modelled as
exact rationals (`ℚ`); the values flowing through the pipeline are integer
millisecond timestamps divided by 1000, which `ℚ` represents exactly.
`NaN` is modelled by `Option ℚ` (`none` = NaN) where it can occur
(the results of `parseInt` / `parseFloat` / `timeToSeconds`).
-/

open List

/-- Whitespace class used by JavaScript `\s`, `String.prototype.trim`
and the sanitizer's whitespace-collapsing regex. -/
def isJsWs (c : Char) : Bool :=
  c = ' ' || c = '\t' || c = '\n' || c = '\r' || c = '\x0b' || c = '\x0c' || c = ' '

/-- Helper for `jsSplit`: prepend a character to the first chunk. -/
def consHead (c : Char) : List (List Char) → List (List Char)
  | [] => [[c]]
  | r :: rs => (c :: r) :: rs

/-- JavaScript `String.prototype.split` with a single-character separator:
`"".split(sep) = [""]`, separators delimit (possibly empty) chunks. -/
def jsSplit (sep : Char) : List Char → List (List Char)
  | [] => [[]]
  | c :: rest => if c = sep then [] :: jsSplit sep rest else consHead c (jsSplit sep rest)

/-- Numeric value of a list of decimal digit characters (most significant first),
via character codes as JavaScript's number parsing effectively does. -/
def digitsToNat (l : List Char) : Nat :=
  l.foldl (fun n c => 10 * n + (c.toNat - 48)) 0

/-- The longest decimal-digit prefix of `l`, as a number; `none` when there is
no leading digit (JavaScript `NaN`). -/
def digitsPrefix (l : List Char) : Option Nat :=
  let ds := l.takeWhile Char.isDigit
  if ds.isEmpty then none else some (digitsToNat ds)

/-- JavaScript `parseInt(s, 10)`: skip leading whitespace, optional sign,
then the longest digit prefix; `NaN` (= `none`) when no digits follow. -/
def parseIntJs (l : List Char) : Option Int :=
  let t := l.dropWhile isJsWs
  if t.head? = some '-' then Option.map (fun n => -(n : Int)) (digitsPrefix (t.drop 1))
  else if t.head? = some '+' then Option.map (fun n => (n : Int)) (digitsPrefix (t.drop 1))
  else Option.map (fun n => (n : Int)) (digitsPrefix t)

/-- JavaScript `parseFloat(s)` restricted to plain decimal notation
(exponent forms never occur in the timestamp inputs of this code base):
skip leading whitespace, optional sign, integer digits, optional dot and
fraction digits; `NaN` (= `none`) when no digit was consumed. -/
def parseFloatJs (l : List Char) : Option ℚ :=
  let t := l.dropWhile isJsWs
  let u := if t.head? = some '-' || t.head? = some '+' then t.drop 1 else t
  let sgn : ℚ := if t.head? = some '-' then -1 else 1
  let ip := u.takeWhile Char.isDigit
  let rest := u.drop ip.length
  let fp := if rest.head? = some '.' then (rest.drop 1).takeWhile Char.isDigit else []
  if ip.isEmpty && fp.isEmpty then none
  else some (sgn * ((digitsToNat ip : ℚ) + (digitsToNat fp : ℚ) / (10 : ℚ) ^ fp.length))

/-- The typed error taxonomy of the scraper (`SubtitleError` plus the plain
`Error` thrown by `timeToSeconds`).  `nanTimestamp` marks the code path where
a matched timing capture would still produce a NaN time; the totality theorem
for the parsers shows it (like `malformedTimestamp`) is unreachable from the
parsers, which is why the JavaScript code needs no NaN handling there. -/
inductive SubErr where
  | malformedTimestamp (t : List Char)
  | nanTimestamp (t : List Char)
  | noSubsForLanguage (videoId lang : List Char)
  | unsupportedFormat (videoId lang : List Char)
  | downloadFailed (videoId lang msg : List Char)
  | noSubtitlesFound (videoId : List Char) (attempted : List (List Char)) (lastError : Option SubErr)

/-- `timeToSeconds` from `yt-dlp.ts`: split on `":"`; throw
`Invalid time format` unless there are exactly three fields; otherwise
`parseInt(h, 10) * 3600 + parseInt(m, 10) * 60 + parseFloat(s)`
(NaN-propagating, modelled by the inner `Option`). -/
def timeToSeconds (l : List Char) : Except SubErr (Option ℚ) :=
  match jsSplit ':' l with
  | [p0, p1, p2] =>
    match parseIntJs p0, parseIntJs p1, parseFloatJs p2 with
    | some h, some m, some s => .ok (some ((h : ℚ) * 3600 + (m : ℚ) * 60 + s))
    | _, _, _ => .ok none
  | _ => .error (.malformedTimestamp l)

/-- Shape test for the WebVTT inline timestamp tag `<\d{2}:\d{2}:\d{2}\.\d{3}>`
at the head of `l` (a fixed-width, 14-character pattern). -/
def isTsTag (l : List Char) : Bool :=
  match l.take 14 with
  | ['<', c1, c2, c3, c4, c5, c6, c7, c8, c9, c10, c11, c12, '>'] =>
    c1.isDigit && c2.isDigit && c3 = ':' && c4.isDigit && c5.isDigit && c6 = ':' &&
    c7.isDigit && c8.isDigit && c9 = '.' && c10.isDigit && c11.isDigit && c12.isDigit
  | _ => false

/-- First stage of `cleanSubtitleText`: the global replacement of the
WebVTT inline timestamp tags `<HH:MM:SS.mmm>` by the empty string.  On a
failed match the scan resumes one character later, as a regex engine does. -/
def removeTimestampTags : List Char → List Char
  | [] => []
  | c :: rest =>
    if isTsTag (c :: rest) then removeTimestampTags ((c :: rest).drop 14)
    else c :: removeTimestampTags rest
termination_by l => l.length
decreasing_by
  · simp only [List.length_drop, List.length_cons]; omega
  · simp

/-- Scan for the first `>` (the lazy `.*?>` of the voice-tag regex); fails at a
line terminator because `.` does not match those. Returns the remainder after
the `>`. -/
def findGt : List Char → Option (List Char)
  | [] => none
  | c :: r => if c = '>' then some r else if c = '\n' || c = '\r' then none else findGt r

/-- Match attempt for the voice/color-tag regex `<\/?[c|v].*?>` at a position
just after a `<`: optional slash, one character of the class `{c, |, v}`, then
lazily anything up to a `>`.  Returns the remainder after the matched tag. -/
def voiceTagRest (l : List Char) : Option (List Char) :=
  if l.head? = some '/' then
    if (l.drop 1).head? = some 'c' || (l.drop 1).head? = some '|' || (l.drop 1).head? = some 'v'
    then findGt (l.drop 2) else none
  else
    if l.head? = some 'c' || l.head? = some '|' || l.head? = some 'v'
    then findGt (l.drop 1) else none

/-- Second stage of `cleanSubtitleText`: global removal of voice/color tags
`<\/?[c|v].*?>`. -/
def removeVoiceTags : List Char → List Char
  | [] => []
  | c :: rest =>
    if c = '<' then
      match h : voiceTagRest rest with
      | some r => removeVoiceTags r
      | none => c :: removeVoiceTags rest
    else c :: removeVoiceTags rest
termination_by l => l.length
decreasing_by
  · have keyGt : ∀ (x : List Char) r, findGt x = some r → r.length < x.length := by
      intro x
      induction x with
      | nil => intro r hr; simp [findGt] at hr
      | cons a as ih =>
        intro r hr
        rw [findGt] at hr
        split at hr
        · injection hr with hr; subst hr; simp
        · split at hr
          · cases hr
          · exact Nat.lt_succ_of_lt (ih r hr)
    have key : ∀ (x : List Char) r, voiceTagRest x = some r → r.length < x.length := by
      intro x r hr
      rw [voiceTagRest] at hr
      have hd : ∀ k, (x.drop k).length ≤ x.length := by
        intro k; simp [List.length_drop]
      split at hr
      · split at hr
        · exact lt_of_lt_of_le (keyGt _ _ hr) (hd 2)
        · cases hr
      · split at hr
        · exact lt_of_lt_of_le (keyGt _ _ hr) (hd 1)
        · cases hr
    exact Nat.lt_succ_of_lt (key rest r h)
  · simp
  · simp

/-- Scan for the first `>` with no restriction (the `[^>]*>` tail of the
generic-markup regex; a negated class also matches line terminators). -/
def findGtAny : List Char → Option (List Char)
  | [] => none
  | c :: r => if c = '>' then some r else findGtAny r

/-- Third stage of `cleanSubtitleText`: global removal of any remaining
angle-bracket markup `<[^>]*>`. -/
def removeOtherTags : List Char → List Char
  | [] => []
  | c :: rest =>
    if c = '<' then
      match h : findGtAny rest with
      | some r => removeOtherTags r
      | none => c :: removeOtherTags rest
    else c :: removeOtherTags rest
termination_by l => l.length
decreasing_by
  · have key : ∀ (x : List Char) r, findGtAny x = some r → r.length < x.length := by
      intro x
      induction x with
      | nil => intro r hr; simp [findGtAny] at hr
      | cons a as ih =>
        intro r hr
        rw [findGtAny] at hr
        split at hr
        · injection hr with hr; subst hr; simp
        · exact Nat.lt_succ_of_lt (ih r hr)
    exact Nat.lt_succ_of_lt (key rest r h)
  · simp
  · simp

/-- Fourth stage of `cleanSubtitleText`: the global replacement `\s+` → a
single space. -/
def collapseWs : List Char → List Char
  | [] => []
  | c :: rest =>
    if isJsWs c then ' ' :: collapseWs (rest.dropWhile isJsWs)
    else c :: collapseWs rest
termination_by l => l.length
decreasing_by
  · exact Nat.lt_succ_of_le ((dropWhile_sublist isJsWs).length_le)
  · simp

/-- Normal form of the whitespace-collapsing stage: every whitespace
character is a single space not followed by further whitespace. -/
def wsCollapsed : List Char → Bool
  | [] => true
  | c :: rest =>
    (!isJsWs c || (c = ' ' && rest.head?.all fun d => !isJsWs d)) && wsCollapsed rest

/-- Drop trailing JavaScript whitespace. -/
def trimRight : List Char → List Char
  | [] => []
  | c :: rest =>
    match trimRight rest with
    | [] => if isJsWs c then [] else [c]
    | r => c :: r

/-- JavaScript `String.prototype.trim`. -/
def trimChars (l : List Char) : List Char :=
  (trimRight l).dropWhile isJsWs

/-- `cleanSubtitleText` from `yt-dlp.ts`: remove inline timestamp tags, then
voice/color tags, then any remaining markup, collapse whitespace runs to a
single space, and trim. -/
def cleanSubtitleText (l : List Char) : List Char :=
  trimChars (collapseWs (removeOtherTags (removeVoiceTags (removeTimestampTags l))))

/-- A caption entry (`Subtitle` interface): text, start time and duration in
seconds. -/
structure Subtitle where
  text : List Char
  start : ℚ
  duration : ℚ
deriving DecidableEq, Repr

/-- The deduplication key of `deduplicateAndFilter`.  The source forms the
string `text + "_" + Math.floor(start * 10)`; since the decimal rendering of
the floor contains no underscore, that string determines and is determined by
this (text, floored decisecond) pair, which we use directly. -/
def dedupKey (s : Subtitle) : List Char × Int :=
  (s.text, ⌊s.start * 10⌋)

/-- The comparator `(a, b) => a.start - b.start` used with the (stable)
JavaScript `Array.prototype.sort`, as a boolean "less or equal" test. -/
def subtitleLe (a b : Subtitle) : Bool :=
  a.start ≤ b.start

/-- The duration floor test of `deduplicateAndFilter`: an entry survives the
filter when its duration is not below 0.1 seconds. -/
def durationOk (s : Subtitle) : Bool :=
  !(decide (s.duration < 1 / 10))

/-- The filtering/deduplicating loop of `deduplicateAndFilter`: drop entries
with duration below 0.1, and entries whose key was already seen. -/
def dedupAux : List Subtitle → List (List Char × Int) → List Subtitle
  | [], _ => []
  | s :: rest, seen =>
    if s.duration < 1 / 10 then dedupAux rest seen
    else if dedupKey s ∈ seen then dedupAux rest seen
    else s :: dedupAux rest (dedupKey s :: seen)

/-- `deduplicateAndFilter` from `yt-dlp.ts`: duration filter and key-based
dedup (first occurrence wins), then a stable sort ascending by start time. -/
def deduplicateAndFilter (subs : List Subtitle) : List Subtitle :=
  (dedupAux subs []).mergeSort subtitleLe

/-- The currently open caption block while scanning a WebVTT file
(`currentSubtitle` in the source; its `end` field is `stop` here because
`end` is reserved). -/
structure OpenCue where
  start : ℚ
  stop : ℚ
  text : List Char
deriving DecidableEq, Repr

/-- `line.includes("-->")`. -/
def containsArrow : List Char → Bool
  | '-' :: '-' :: '>' :: _ => true
  | _ :: rest => containsArrow rest
  | [] => false

/-- Exact-shape test for one `HH:MM:SS.mmm` timecode capture (`\d{2}:\d{2}:\d{2}\.\d{3}`). -/
def isTimecode (l : List Char) : Bool :=
  match l with
  | [a, b, c, d, e, f, g, h, i, j, k, m] =>
    a.isDigit && b.isDigit && c = ':' && d.isDigit && e.isDigit && f = ':' &&
    g.isDigit && h.isDigit && i = '.' && j.isDigit && k.isDigit && m.isDigit
  | _ => false

/-- Exact-shape test for one `HH:MM:SS,mmm` timecode capture (`\d{2}:\d{2}:\d{2},\d{3}`). -/
def isTimecodeComma (l : List Char) : Bool :=
  match l with
  | [a, b, c, d, e, f, g, h, i, j, k, m] =>
    a.isDigit && b.isDigit && c = ':' && d.isDigit && e.isDigit && f = ':' &&
    g.isDigit && h.isDigit && i = ',' && j.isDigit && k.isDigit && m.isDigit
  | _ => false

/-- The anchored VTT timing-line regex
`^(\d{2}:\d{2}:\d{2}\.\d{3}) --> (\d{2}:\d{2}:\d{2}\.\d{3})` (trailing content
is allowed); returns the two captures. The pattern is fixed-width, so the
captures are fixed slices of the line. -/
def vttTimeMatch (line : List Char) : Option (List Char × List Char) :=
  let t1 := line.take 12
  let arrow := (line.drop 12).take 5
  let t2 := (line.drop 17).take 12
  if isTimecode t1 && arrow = (" --> ".toList) && isTimecode t2 then some (t1, t2) else none

/-- The anchored SRT timing-line regex
`^(\d{2}:\d{2}:\d{2},\d{3}) --> (\d{2}:\d{2}:\d{2},\d{3})`; returns the two
captures. -/
def srtTimeMatch (line : List Char) : Option (List Char × List Char) :=
  let t1 := line.take 12
  let arrow := (line.drop 12).take 5
  let t2 := (line.drop 17).take 12
  if isTimecodeComma t1 && arrow = (" --> ".toList) && isTimecodeComma t2 then some (t1, t2)
  else none

/-- `line.startsWith("WEBVTT")`. -/
def startsWithWEBVTT (l : List Char) : Bool :=
  ("WEBVTT".toList).isPrefixOf l

/-- The space-joining text accumulation
`text += (text ? " " : "") + line` of the VTT parser. -/
def joinSp (t line : List Char) : List Char :=
  t ++ (if t.isEmpty then [] else [' ']) ++ line

/-- Flush the open caption block if its trimmed text is non-empty
(the push of `parseVTT`). -/
def flushCue (cur : Option OpenCue) (acc : List Subtitle) : List Subtitle :=
  match cur with
  | none => acc
  | some cue =>
    if (trimChars cue.text).isEmpty then acc
    else acc ++ [⟨cleanSubtitleText (trimChars cue.text), cue.start, cue.stop - cue.start⟩]

/-- One iteration of the line loop of `parseVTT`: skip header/empty lines;
a timing line flushes the open block and opens a new one; otherwise a
non-empty line without `-->` is appended to the open block's text. -/
def vttStep (st : Option OpenCue × List Subtitle) (line : List Char) :
    Except SubErr (Option OpenCue × List Subtitle) :=
  if startsWithWEBVTT line || line.isEmpty then .ok st
  else
    match vttTimeMatch line with
    | some (t1, t2) =>
      match timeToSeconds t1, timeToSeconds t2 with
      | .ok (some s), .ok (some e) => .ok (some ⟨s, e, []⟩, flushCue st.1 st.2)
      | .error err, _ => .error err
      | _, .error err => .error err
      | _, _ => .error (.nanTimestamp line)
    | none =>
      match st.1 with
      | some cue =>
        if !line.isEmpty && !containsArrow line then
          .ok (some ⟨cue.start, cue.stop, joinSp cue.text line⟩, st.2)
        else .ok st
      | none => .ok st

/-- The line loop of `parseVTT`. -/
def vttScan : Option OpenCue × List Subtitle → List (List Char) → Except SubErr (Option OpenCue × List Subtitle)
  | st, [] => .ok st
  | st, line :: rest =>
    match vttStep st line with
    | .ok st2 => vttScan st2 rest
    | .error e => .error e

/-- `parseVTT` up to (exclusive) the final `deduplicateAndFilter`: split into
trimmed lines, run the line loop, flush the last open block. -/
def parseVTTRaw (content : List Char) : Except SubErr (List Subtitle) :=
  match vttScan (none, []) ((jsSplit '\n' content).map trimChars) with
  | .ok (cur, acc) => .ok (flushCue cur acc)
  | .error e => .error e

/-- `parseVTT` from `yt-dlp.ts`. -/
def parseVTT (content : List Char) : Except SubErr (List Subtitle) :=
  (parseVTTRaw content).map deduplicateAndFilter

/-- JavaScript `split("\n\n")`: split on the two-character separator. -/
def splitOnBlank : List Char → List (List Char)
  | '\n' :: '\n' :: rest => [] :: splitOnBlank rest
  | c :: rest => consHead c (splitOnBlank rest)
  | [] => [[]]

/-- `timeMatch[k].replace(",", ".")`: replace the first comma by a dot. -/
def replaceCommaDot : List Char → List Char
  | [] => []
  | c :: r => if c = ',' then '.' :: r else c :: replaceCommaDot r

/-- Processing of one SRT block: needs at least three lines (sequence number,
timing line, text lines); a block whose second line fails the timing regex is
silently skipped; empty joined text is skipped too. -/
def srtBlock (block : List Char) : Except SubErr (List Subtitle) :=
  match jsSplit '\n' block with
  | _ :: timeLine :: textLines =>
    if textLines.isEmpty then .ok []
    else
      match srtTimeMatch timeLine with
      | some (t1, t2) =>
        match timeToSeconds (replaceCommaDot t1), timeToSeconds (replaceCommaDot t2) with
        | .ok (some s), .ok (some e) =>
          let text := trimChars (List.intercalate [' '] textLines)
          if text.isEmpty then .ok []
          else .ok [⟨cleanSubtitleText text, s, e - s⟩]
        | .error err, _ => .error err
        | _, .error err => .error err
        | _, _ => .error (.nanTimestamp timeLine)
      | none => .ok []
  | _ => .ok []

/-- The block loop of `parseSRT`. -/
def parseSRTAux : List (List Char) → Except SubErr (List Subtitle)
  | [] => .ok []
  | b :: bs =>
    match srtBlock b with
    | .error e => .error e
    | .ok s => (parseSRTAux bs).map (fun rest => s ++ rest)

/-- `parseSRT` from `yt-dlp.ts`: trim, split into blocks on blank lines,
process each block, then `deduplicateAndFilter`. -/
def parseSRT (content : List Char) : Except SubErr (List Subtitle) :=
  (parseSRTAux (splitOnBlank (trimChars content))).map deduplicateAndFilter

/-- `file.endsWith(".vtt") || file.endsWith(".srt")`. -/
def isSubtitleFileName (f : List Char) : Bool :=
  (".vtt".toList).isSuffixOf f || (".srt".toList).isSuffixOf f

/-- JavaScript `String.prototype.includes` (substring containment). -/
def containsSeq (needle : List Char) : List Char → Bool
  | [] => needle.isEmpty
  | c :: rest => needle.isPrefixOf (c :: rest) || containsSeq needle rest

/-- The per-language filter of `fetchSubtitlesForLanguage`:
`file.includes(videoId) && file.includes(languageCode)` with a subtitle
extension. -/
def matchesLangFile (videoId lang f : List Char) : Bool :=
  containsSeq videoId f && containsSeq lang f && isSubtitleFileName f

/-- The fallback filter of `fetchSubtitlesForLanguage`:
`file.includes(videoId)` with a subtitle extension (any language). -/
def matchesAnyFile (videoId f : List Char) : Bool :=
  containsSeq videoId f && isSubtitleFileName f

/-- File selection in `fetchSubtitlesForLanguage`: the first
language-matching file; when none exists, the first video-matching subtitle
file of any language; `none` reports the no-subtitles error. -/
def selectSubtitleFile (videoId lang : List Char) (files : List (List Char)) :
    Option (List Char) :=
  match files.filter (matchesLangFile videoId lang) with
  | f :: _ => some f
  | [] =>
    match files.filter (matchesAnyFile videoId) with
    | g :: _ => some g
    | [] => none

/-- Format dispatch on the selected file's extension. -/
def parseByExtension (videoId lang name content : List Char) :
    Except SubErr (List Subtitle) :=
  if (".vtt".toList).isSuffixOf name then parseVTT content
  else if (".srt".toList).isSuffixOf name then parseSRT content
  else .error (.unsupportedFormat videoId lang)

/-- The file-discovery and parsing tail of `fetchSubtitlesForLanguage`
(after the yt-dlp subprocess has run), over the directory listing `files`
and file contents `read`. -/
def fetchSubtitlesForLanguage (videoId lang : List Char) (files : List (List Char))
    (read : List Char → List Char) : Except SubErr (List Subtitle) :=
  match selectSubtitleFile videoId lang files with
  | none => .error (.noSubsForLanguage videoId lang)
  | some f => parseByExtension videoId lang f (read f)

/-- The per-language fallback loop of `fetchSubtitles`, over an abstract
per-language downloader `dl`.  Returns the successful result (if any), the
`lastError` accumulator, and the list of languages for which `dl` was
invoked, in invocation order. -/
def runFetchAux (dl : List Char → Except SubErr (List Subtitle)) :
    List (List Char) → Option SubErr →
    Option (List Subtitle) × Option SubErr × List (List Char)
  | [], lastErr => (none, lastErr, [])
  | l :: rest, lastErr =>
    match dl l with
    | .ok subs =>
      if 0 < subs.length then (some subs, lastErr, [l])
      else
        match runFetchAux dl rest lastErr with
        | (r, e, inv) => (r, e, l :: inv)
    | .error err =>
      match runFetchAux dl rest (some err) with
      | (r, e, inv) => (r, e, l :: inv)

/-- The language-retry part of `fetchSubtitles`: try the candidates in order;
if none yields a non-empty list, throw `NoSubtitlesFound` carrying the video
id, all candidate languages, and the last recorded per-language error. -/
def retrieveModel (dl : List Char → Except SubErr (List Subtitle))
    (videoId : List Char) (langs : List (List Char)) :
    Except SubErr (List Subtitle) :=
  match runFetchAux dl langs none with
  | (some subs, _, _) => .ok subs
  | (none, lastErr, _) => .error (.noSubtitlesFound videoId langs lastErr)

/-- `languagesToTry` of `fetchSubtitles`: the single requested language, or
the `["en", "hi"]` default. -/
def languagesToTry (lang : Option (List Char)) : List (List Char) :=
  match lang with
  | some l => [l]
  | none => ["en".toList, "hi".toList]

/-- The orchestration core of `fetchSubtitles` (after videoId validation and
setup): candidate list selection plus the retry loop. -/
def fetchSubtitles (dl : List Char → Except SubErr (List Subtitle))
    (videoId : List Char) (lang : Option (List Char)) :
    Except SubErr (List Subtitle) :=
  retrieveModel dl videoId (languagesToTry lang)

/-- A per-language attempt that does not produce a usable result: it either
throws, or returns an empty subtitle list (both make `fetchSubtitles` move on
to the next candidate). -/
def failsOrEmpty (result : Except SubErr (List Subtitle)) : Prop :=
  match result with
  | .ok subs => subs = []
  | .error _ => True

/-- Spec-side definition (for the refinement comparison of the timestamp
claim): a string of the form `HH:MM:SS[.mmm]` — exactly three colon-separated
fields of two digits, two digits, and two digits optionally followed by a dot
and three fraction digits. -/
def wellFormedTimestamp (l : List Char) : Bool :=
  match l with
  | [a, b, c1, d, e, c2, g, k] =>
    a.isDigit && b.isDigit && c1 = ':' && d.isDigit && e.isDigit && c2 = ':' &&
    g.isDigit && k.isDigit
  | [a, b, c1, d, e, c2, g, k, dot, f1, f2, f3] =>
    a.isDigit && b.isDigit && c1 = ':' && d.isDigit && e.isDigit && c2 = ':' &&
    g.isDigit && k.isDigit && dot = '.' && f1.isDigit && f2.isDigit && f3.isDigit
  | _ => false

/-- The numeric value of a decimal digit character, as a rational. -/
def digitVal (c : Char) : ℚ :=
  ((c.toNat - 48 : ℕ) : ℚ)

/-- Spec-side definition (for the refinement comparison of the timestamp
claim): the value `hours * 3600 + minutes * 60 + seconds` of a well-formed
timestamp, where the seconds may carry a three-digit fractional component. -/
def specTimestampValue : List Char → ℚ
  | [a, b, _, d, e, _, g, k] =>
    (10 * digitVal a + digitVal b) * 3600 + (10 * digitVal d + digitVal e) * 60 +
      (10 * digitVal g + digitVal k)
  | [a, b, _, d, e, _, g, k, _, f1, f2, f3] =>
    (10 * digitVal a + digitVal b) * 3600 + (10 * digitVal d + digitVal e) * 60 +
      (10 * digitVal g + digitVal k) +
      (100 * digitVal f1 + 10 * digitVal f2 + digitVal f3) / 1000
  | _ => 0

/-! ### Character and digit helper lemmas -/

theorem digit_ne {c x : Char} (h : c.isDigit = true) (hx : x.isDigit = false) : c ≠ x := by
  intro he
  rw [he, hx] at h
  cases h

theorem digit_not_ws {c : Char} (h : c.isDigit = true) : isJsWs c = false := by
  rcases hb : isJsWs c with _ | _
  · rfl
  · exfalso
    simp only [isJsWs, Bool.or_eq_true, decide_eq_true_eq] at hb
    rcases hb with ((((((rfl | rfl) | rfl) | rfl) | rfl) | rfl) | rfl) <;>
      exact absurd h (by decide)

theorem isTimecode_shape {t : List Char} (h : isTimecode t = true) :
    ∃ a b d e g k f1 f2 f3,
      t = [a, b, ':', d, e, ':', g, k, '.', f1, f2, f3] ∧
      a.isDigit = true ∧ b.isDigit = true ∧ d.isDigit = true ∧ e.isDigit = true ∧
      g.isDigit = true ∧ k.isDigit = true ∧ f1.isDigit = true ∧ f2.isDigit = true ∧
      f3.isDigit = true := by
  rcases t with _ | ⟨a, t⟩
  · exact absurd h (by simp [isTimecode])
  rcases t with _ | ⟨b, t⟩
  · exact absurd h (by simp [isTimecode])
  rcases t with _ | ⟨c, t⟩
  · exact absurd h (by simp [isTimecode])
  rcases t with _ | ⟨d, t⟩
  · exact absurd h (by simp [isTimecode])
  rcases t with _ | ⟨e, t⟩
  · exact absurd h (by simp [isTimecode])
  rcases t with _ | ⟨f, t⟩
  · exact absurd h (by simp [isTimecode])
  rcases t with _ | ⟨g, t⟩
  · exact absurd h (by simp [isTimecode])
  rcases t with _ | ⟨k, t⟩
  · exact absurd h (by simp [isTimecode])
  rcases t with _ | ⟨i, t⟩
  · exact absurd h (by simp [isTimecode])
  rcases t with _ | ⟨f1, t⟩
  · exact absurd h (by simp [isTimecode])
  rcases t with _ | ⟨f2, t⟩
  · exact absurd h (by simp [isTimecode])
  rcases t with _ | ⟨f3, t⟩
  · exact absurd h (by simp [isTimecode])
  rcases t with _ | ⟨x, t⟩
  swap
  · exact absurd h (by simp [isTimecode])
  simp only [isTimecode, Bool.and_eq_true, decide_eq_true_eq] at h
  obtain ⟨⟨⟨⟨⟨⟨⟨⟨⟨⟨⟨ha, hb⟩, hc⟩, hd⟩, he⟩, hf⟩, hg⟩, hk⟩, hi⟩, h1⟩, h2⟩, h3⟩ := h
  subst hc; subst hf; subst hi
  exact ⟨a, b, d, e, g, k, f1, f2, f3, rfl, ha, hb, hd, he, hg, hk, h1, h2, h3⟩

theorem isTimecodeComma_shape {t : List Char} (h : isTimecodeComma t = true) :
    ∃ a b d e g k f1 f2 f3,
      t = [a, b, ':', d, e, ':', g, k, ',', f1, f2, f3] ∧
      a.isDigit = true ∧ b.isDigit = true ∧ d.isDigit = true ∧ e.isDigit = true ∧
      g.isDigit = true ∧ k.isDigit = true ∧ f1.isDigit = true ∧ f2.isDigit = true ∧
      f3.isDigit = true := by
  rcases t with _ | ⟨a, t⟩
  · exact absurd h (by simp [isTimecodeComma])
  rcases t with _ | ⟨b, t⟩
  · exact absurd h (by simp [isTimecodeComma])
  rcases t with _ | ⟨c, t⟩
  · exact absurd h (by simp [isTimecodeComma])
  rcases t with _ | ⟨d, t⟩
  · exact absurd h (by simp [isTimecodeComma])
  rcases t with _ | ⟨e, t⟩
  · exact absurd h (by simp [isTimecodeComma])
  rcases t with _ | ⟨f, t⟩
  · exact absurd h (by simp [isTimecodeComma])
  rcases t with _ | ⟨g, t⟩
  · exact absurd h (by simp [isTimecodeComma])
  rcases t with _ | ⟨k, t⟩
  · exact absurd h (by simp [isTimecodeComma])
  rcases t with _ | ⟨i, t⟩
  · exact absurd h (by simp [isTimecodeComma])
  rcases t with _ | ⟨f1, t⟩
  · exact absurd h (by simp [isTimecodeComma])
  rcases t with _ | ⟨f2, t⟩
  · exact absurd h (by simp [isTimecodeComma])
  rcases t with _ | ⟨f3, t⟩
  · exact absurd h (by simp [isTimecodeComma])
  rcases t with _ | ⟨x, t⟩
  swap
  · exact absurd h (by simp [isTimecodeComma])
  simp only [isTimecodeComma, Bool.and_eq_true, decide_eq_true_eq] at h
  obtain ⟨⟨⟨⟨⟨⟨⟨⟨⟨⟨⟨ha, hb⟩, hc⟩, hd⟩, he⟩, hf⟩, hg⟩, hk⟩, hi⟩, h1⟩, h2⟩, h3⟩ := h
  subst hc; subst hf; subst hi
  exact ⟨a, b, d, e, g, k, f1, f2, f3, rfl, ha, hb, hd, he, hg, hk, h1, h2, h3⟩

theorem replaceCommaDot_timecode {a b d e g k f1 f2 f3 : Char}
    (ha : a.isDigit = true) (hb : b.isDigit = true) (hd : d.isDigit = true)
    (he : e.isDigit = true) (hg : g.isDigit = true) (hk : k.isDigit = true) :
    replaceCommaDot [a, b, ':', d, e, ':', g, k, ',', f1, f2, f3] =
      [a, b, ':', d, e, ':', g, k, '.', f1, f2, f3] := by
  have na := digit_ne ha (by decide : (',' : Char).isDigit = false)
  have nb := digit_ne hb (by decide : (',' : Char).isDigit = false)
  have nd := digit_ne hd (by decide : (',' : Char).isDigit = false)
  have ne' := digit_ne he (by decide : (',' : Char).isDigit = false)
  have ng := digit_ne hg (by decide : (',' : Char).isDigit = false)
  have nk := digit_ne hk (by decide : (',' : Char).isDigit = false)
  simp +decide [replaceCommaDot, na, nb, nd, ne', ng, nk]

theorem jsSplit_colon_timecode {a b d e g k f1 f2 f3 : Char}
    (ha : a.isDigit = true) (hb : b.isDigit = true) (hd : d.isDigit = true)
    (he : e.isDigit = true) (hg : g.isDigit = true) (hk : k.isDigit = true)
    (h1 : f1.isDigit = true) (h2 : f2.isDigit = true) (h3 : f3.isDigit = true) :
    jsSplit ':' [a, b, ':', d, e, ':', g, k, '.', f1, f2, f3] =
      [[a, b], [d, e], [g, k, '.', f1, f2, f3]] := by
  have cne : (':' : Char).isDigit = false := by decide
  have na := digit_ne ha cne
  have nb := digit_ne hb cne
  have nd := digit_ne hd cne
  have ne' := digit_ne he cne
  have ng := digit_ne hg cne
  have nk := digit_ne hk cne
  have n1 := digit_ne h1 cne
  have n2 := digit_ne h2 cne
  have n3 := digit_ne h3 cne
  simp +decide [jsSplit, consHead, na, nb, nd, ne', ng, nk, n1, n2, n3]

theorem parseIntJs_digits2 {a b : Char} (ha : a.isDigit = true) (hb : b.isDigit = true) :
    parseIntJs [a, b] = some ((digitsToNat [a, b] : ℕ) : ℤ) := by
  have wa := digit_not_ws ha
  have na := digit_ne ha (by decide : ('-' : Char).isDigit = false)
  have pa := digit_ne ha (by decide : ('+' : Char).isDigit = false)
  simp [parseIntJs, digitsPrefix, List.dropWhile, List.takeWhile, wa, na, pa, ha, hb,
    List.isEmpty]

theorem parseFloatJs_secs {g k f1 f2 f3 : Char}
    (hg : g.isDigit = true) (hk : k.isDigit = true) (h1 : f1.isDigit = true)
    (h2 : f2.isDigit = true) (h3 : f3.isDigit = true) :
    parseFloatJs [g, k, '.', f1, f2, f3] =
      some ((digitsToNat [g, k] : ℚ) + (digitsToNat [f1, f2, f3] : ℚ) / 10 ^ 3) := by
  have wg := digit_not_ws hg
  have ng := digit_ne hg (by decide : ('-' : Char).isDigit = false)
  have pg := digit_ne hg (by decide : ('+' : Char).isDigit = false)
  have dotnd : ('.' : Char).isDigit = false := by decide
  simp +decide [parseFloatJs, List.dropWhile, List.takeWhile, List.drop, wg, ng, pg,
    hg, hk, h1, h2, h3, dotnd, List.isEmpty]

theorem parseFloatJs_digits2 {g k : Char} (hg : g.isDigit = true) (hk : k.isDigit = true) :
    parseFloatJs [g, k] = some ((digitsToNat [g, k] : ℚ)) := by
  have wg := digit_not_ws hg
  have ng := digit_ne hg (by decide : ('-' : Char).isDigit = false)
  have pg := digit_ne hg (by decide : ('+' : Char).isDigit = false)
  simp +decide [parseFloatJs, List.dropWhile, List.takeWhile, List.drop, wg, ng, pg,
    hg, hk, List.isEmpty, digitsToNat]

theorem timeToSeconds_timecode_val {a b d e g k f1 f2 f3 : Char}
    (ha : a.isDigit = true) (hb : b.isDigit = true) (hd : d.isDigit = true)
    (he : e.isDigit = true) (hg : g.isDigit = true) (hk : k.isDigit = true)
    (h1 : f1.isDigit = true) (h2 : f2.isDigit = true) (h3 : f3.isDigit = true) :
    timeToSeconds [a, b, ':', d, e, ':', g, k, '.', f1, f2, f3] =
      .ok (some (((digitsToNat [a, b] : ℤ) : ℚ) * 3600 + ((digitsToNat [d, e] : ℤ) : ℚ) * 60 +
        ((digitsToNat [g, k] : ℚ) + (digitsToNat [f1, f2, f3] : ℚ) / 10 ^ 3))) := by
  simp only [timeToSeconds, jsSplit_colon_timecode ha hb hd he hg hk h1 h2 h3,
    parseIntJs_digits2 ha hb, parseIntJs_digits2 hd he, parseFloatJs_secs hg hk h1 h2 h3]

theorem timeToSeconds_of_isTimecode {t : List Char} (h : isTimecode t = true) :
    ∃ q : ℚ, timeToSeconds t = .ok (some q) := by
  obtain ⟨a, b, d, e, g, k, f1, f2, f3, rfl, ha, hb, hd, he, hg, hk, h1, h2, h3⟩ :=
    isTimecode_shape h
  exact ⟨_, timeToSeconds_timecode_val ha hb hd he hg hk h1 h2 h3⟩

/-! ### Totality of the parsers -/

theorem vttTimeMatch_some {line t1 t2 : List Char} (h : vttTimeMatch line = some (t1, t2)) :
    isTimecode t1 = true ∧ isTimecode t2 = true ∧
      t1 = line.take 12 ∧ t2 = (line.drop 17).take 12 := by
  simp only [vttTimeMatch] at h
  split at h
  · rename_i hc
    simp only [Bool.and_eq_true] at hc
    have hp := Option.some.inj h
    have h1 : line.take 12 = t1 := congrArg Prod.fst hp
    have h2 : (line.drop 17).take 12 = t2 := congrArg Prod.snd hp
    subst h1; subst h2
    exact ⟨hc.1.1, hc.2, rfl, rfl⟩
  · cases h

theorem srtTimeMatch_some {line t1 t2 : List Char} (h : srtTimeMatch line = some (t1, t2)) :
    isTimecodeComma t1 = true ∧ isTimecodeComma t2 = true := by
  simp only [srtTimeMatch] at h
  split at h
  · rename_i hc
    simp only [Bool.and_eq_true] at hc
    have hp := Option.some.inj h
    have h1 : line.take 12 = t1 := congrArg Prod.fst hp
    have h2 : (line.drop 17).take 12 = t2 := congrArg Prod.snd hp
    subst h1; subst h2
    exact ⟨hc.1.1, hc.2⟩
  · cases h

theorem timeToSeconds_of_isTimecodeComma {t : List Char} (h : isTimecodeComma t = true) :
    ∃ q : ℚ, timeToSeconds (replaceCommaDot t) = .ok (some q) := by
  obtain ⟨a, b, d, e, g, k, f1, f2, f3, rfl, ha, hb, hd, he, hg, hk, h1, h2, h3⟩ :=
    isTimecodeComma_shape h
  rw [replaceCommaDot_timecode ha hb hd he hg hk]
  exact ⟨_, timeToSeconds_timecode_val ha hb hd he hg hk h1 h2 h3⟩

theorem vttStep_ok (st : Option OpenCue × List Subtitle) (line : List Char) :
    ∃ st2, vttStep st line = .ok st2 := by
  rw [vttStep]
  split
  · exact ⟨st, rfl⟩
  · cases hm : vttTimeMatch line with
    | some pair =>
      obtain ⟨t1, t2⟩ := pair
      obtain ⟨hc1, hc2, -, -⟩ := vttTimeMatch_some hm
      obtain ⟨q1, hq1⟩ := timeToSeconds_of_isTimecode hc1
      obtain ⟨q2, hq2⟩ := timeToSeconds_of_isTimecode hc2
      simp only [hm, hq1, hq2]
      exact ⟨_, rfl⟩
    | none =>
      simp only [hm]
      cases st.1 with
      | some cue =>
        by_cases hc : (!line.isEmpty && !containsArrow line) = true
        · simp only [hc, if_true]
          exact ⟨_, rfl⟩
        · simp only [hc, if_false]
          exact ⟨st, rfl⟩
      | none => exact ⟨st, rfl⟩

theorem vttScan_ok (lines : List (List Char)) :
    ∀ st : Option OpenCue × List Subtitle, ∃ st2, vttScan st lines = .ok st2 := by
  induction lines with
  | nil => intro st; exact ⟨st, rfl⟩
  | cons line rest ih =>
    intro st
    obtain ⟨st2, h2⟩ := vttStep_ok st line
    rw [vttScan, h2]
    exact ih st2

theorem parseVTTRaw_ok (content : List Char) : ∃ r, parseVTTRaw content = .ok r := by
  obtain ⟨⟨cur, acc⟩, h⟩ := vttScan_ok ((jsSplit '\n' content).map trimChars) (none, [])
  exact ⟨flushCue cur acc, by rw [parseVTTRaw, h]⟩

theorem parseVTT_ok (content : List Char) : ∃ r, parseVTT content = .ok r := by
  obtain ⟨r, h⟩ := parseVTTRaw_ok content
  exact ⟨deduplicateAndFilter r, by rw [parseVTT, h]; rfl⟩

theorem srtBlock_ok (block : List Char) : ∃ r, srtBlock block = .ok r := by
  rw [srtBlock]
  cases hl : jsSplit '\n' block with
  | nil => exact ⟨[], rfl⟩
  | cons l0 ls =>
    cases ls with
    | nil => exact ⟨[], rfl⟩
    | cons timeLine textLines =>
      by_cases he : textLines.isEmpty = true
      · simp only [he, if_true]
        exact ⟨[], rfl⟩
      · simp only [he, if_false]
        cases hm : srtTimeMatch timeLine with
        | some pair =>
          obtain ⟨t1, t2⟩ := pair
          obtain ⟨hc1, hc2⟩ := srtTimeMatch_some hm
          obtain ⟨q1, hq1⟩ := timeToSeconds_of_isTimecodeComma hc1
          obtain ⟨q2, hq2⟩ := timeToSeconds_of_isTimecodeComma hc2
          simp only [hq1, hq2]
          by_cases ht : (trimChars ([' '].intercalate textLines)).isEmpty = true
          · simp only [ht, if_true]
            exact ⟨[], rfl⟩
          · simp only [ht, if_false]
            exact ⟨_, rfl⟩
        | none => exact ⟨[], rfl⟩

theorem parseSRTAux_ok (blocks : List (List Char)) : ∃ r, parseSRTAux blocks = .ok r := by
  induction blocks with
  | nil => exact ⟨[], rfl⟩
  | cons b bs ih =>
    obtain ⟨rb, hb⟩ := srtBlock_ok b
    obtain ⟨rs, hs⟩ := ih
    exact ⟨rb ++ rs, by rw [parseSRTAux, hb, hs]; rfl⟩

theorem parseSRT_ok (content : List Char) : ∃ r, parseSRT content = .ok r := by
  obtain ⟨r, h⟩ := parseSRTAux_ok (splitOnBlank (trimChars content))
  exact ⟨deduplicateAndFilter r, by rw [parseSRT, h]; rfl⟩

/-- Claim C9: `parseVTT` and `parseSRT` are total — for every input string
they return a result and never raise: every timing string passed to
`timeToSeconds` was vetted by the timing regex, which forces exactly three
colon-separated fields, so both the malformed-timestamp error branch of
`timeToSeconds` and the NaN path are unreachable from either parser. -/
theorem c9_parsers_total (content : List Char) :
    (∃ r, parseVTT content = .ok r) ∧ (∃ r, parseSRT content = .ok r) :=
  ⟨parseVTT_ok content, parseSRT_ok content⟩

/-! ### The timestamp codec claim -/

theorem wellFormedTimestamp_shape {t : List Char} (h : wellFormedTimestamp t = true) :
    (∃ a b d e g k, t = [a, b, ':', d, e, ':', g, k] ∧
      a.isDigit = true ∧ b.isDigit = true ∧ d.isDigit = true ∧ e.isDigit = true ∧
      g.isDigit = true ∧ k.isDigit = true) ∨
    (∃ a b d e g k f1 f2 f3, t = [a, b, ':', d, e, ':', g, k, '.', f1, f2, f3] ∧
      a.isDigit = true ∧ b.isDigit = true ∧ d.isDigit = true ∧ e.isDigit = true ∧
      g.isDigit = true ∧ k.isDigit = true ∧ f1.isDigit = true ∧ f2.isDigit = true ∧
      f3.isDigit = true) := by
  rcases t with _ | ⟨a, t⟩
  · exact absurd h (by simp [wellFormedTimestamp])
  rcases t with _ | ⟨b, t⟩
  · exact absurd h (by simp [wellFormedTimestamp])
  rcases t with _ | ⟨c, t⟩
  · exact absurd h (by simp [wellFormedTimestamp])
  rcases t with _ | ⟨d, t⟩
  · exact absurd h (by simp [wellFormedTimestamp])
  rcases t with _ | ⟨e, t⟩
  · exact absurd h (by simp [wellFormedTimestamp])
  rcases t with _ | ⟨f, t⟩
  · exact absurd h (by simp [wellFormedTimestamp])
  rcases t with _ | ⟨g, t⟩
  · exact absurd h (by simp [wellFormedTimestamp])
  rcases t with _ | ⟨k, t⟩
  · exact absurd h (by simp [wellFormedTimestamp])
  rcases t with _ | ⟨i, t⟩
  · left
    simp only [wellFormedTimestamp, Bool.and_eq_true, decide_eq_true_eq] at h
    obtain ⟨⟨⟨⟨⟨⟨⟨ha, hb⟩, hc⟩, hd⟩, he⟩, hf⟩, hg⟩, hk⟩ := h
    subst hc; subst hf
    exact ⟨a, b, d, e, g, k, rfl, ha, hb, hd, he, hg, hk⟩
  rcases t with _ | ⟨f1, t⟩
  · exact absurd h (by simp [wellFormedTimestamp])
  rcases t with _ | ⟨f2, t⟩
  · exact absurd h (by simp [wellFormedTimestamp])
  rcases t with _ | ⟨f3, t⟩
  · exact absurd h (by simp [wellFormedTimestamp])
  rcases t with _ | ⟨x, t⟩
  swap
  · exact absurd h (by simp [wellFormedTimestamp])
  right
  simp only [wellFormedTimestamp, Bool.and_eq_true, decide_eq_true_eq] at h
  obtain ⟨⟨⟨⟨⟨⟨⟨⟨⟨⟨⟨ha, hb⟩, hc⟩, hd⟩, he⟩, hf⟩, hg⟩, hk⟩, hi⟩, h1⟩, h2⟩, h3⟩ := h
  subst hc; subst hf; subst hi
  exact ⟨a, b, d, e, g, k, f1, f2, f3, rfl, ha, hb, hd, he, hg, hk, h1, h2, h3⟩

theorem jsSplit_colon_timecode8 {a b d e g k : Char}
    (ha : a.isDigit = true) (hb : b.isDigit = true) (hd : d.isDigit = true)
    (he : e.isDigit = true) (hg : g.isDigit = true) (hk : k.isDigit = true) :
    jsSplit ':' [a, b, ':', d, e, ':', g, k] = [[a, b], [d, e], [g, k]] := by
  have cne : (':' : Char).isDigit = false := by decide
  have na := digit_ne ha cne
  have nb := digit_ne hb cne
  have nd := digit_ne hd cne
  have ne' := digit_ne he cne
  have ng := digit_ne hg cne
  have nk := digit_ne hk cne
  simp +decide [jsSplit, consHead, na, nb, nd, ne', ng, nk]

theorem timeToSeconds_timecode8_val {a b d e g k : Char}
    (ha : a.isDigit = true) (hb : b.isDigit = true) (hd : d.isDigit = true)
    (he : e.isDigit = true) (hg : g.isDigit = true) (hk : k.isDigit = true) :
    timeToSeconds [a, b, ':', d, e, ':', g, k] =
      .ok (some (((digitsToNat [a, b] : ℤ) : ℚ) * 3600 + ((digitsToNat [d, e] : ℤ) : ℚ) * 60 +
        (digitsToNat [g, k] : ℚ))) := by
  simp only [timeToSeconds, jsSplit_colon_timecode8 ha hb hd he hg hk,
    parseIntJs_digits2 ha hb, parseIntJs_digits2 hd he, parseFloatJs_digits2 hg hk]

theorem digitsToNat2_q (a b : Char) :
    ((digitsToNat [a, b] : ℕ) : ℚ) = 10 * digitVal a + digitVal b := by
  simp only [digitsToNat, digitVal, List.foldl]
  push_cast
  ring

theorem digitsToNat3_q (a b c : Char) :
    ((digitsToNat [a, b, c] : ℕ) : ℚ) =
      100 * digitVal a + 10 * digitVal b + digitVal c := by
  simp only [digitsToNat, digitVal, List.foldl]
  push_cast
  ring

/-- Claim C4 (amended): `timeToSeconds` fails with the malformed-timestamp
error exactly when the input does not split into exactly three colon-separated
fields — no well-formedness of the fields themselves is checked; and on a
well-formed `HH:MM:SS[.mmm]` input it returns
`hours * 3600 + minutes * 60 + seconds`, the seconds field carrying its
optional three-digit fractional component. -/
theorem c4_timeToSeconds_amended (l : List Char) :
    ((∃ err, timeToSeconds l = .error err) ↔ (jsSplit ':' l).length ≠ 3) ∧
    (wellFormedTimestamp l = true →
      timeToSeconds l = .ok (some (specTimestampValue l))) := by
  constructor
  · rcases hj : jsSplit ':' l with _ | ⟨p0, _ | ⟨p1, _ | ⟨p2, _ | ⟨p3, ps⟩⟩⟩⟩ <;>
      simp only [timeToSeconds, hj] <;> try simp
    cases h0 : parseIntJs p0 <;> cases h1 : parseIntJs p1 <;> cases h2 : parseFloatJs p2 <;>
      simp
  · intro hw
    rcases wellFormedTimestamp_shape hw with
      ⟨a, b, d, e, g, k, rfl, ha, hb, hd, he, hg, hk⟩ |
      ⟨a, b, d, e, g, k, f1, f2, f3, rfl, ha, hb, hd, he, hg, hk, h1, h2, h3⟩
    · rw [timeToSeconds_timecode8_val ha hb hd he hg hk]
      have va := digitsToNat2_q a b
      have vd := digitsToNat2_q d e
      have vg := digitsToNat2_q g k
      simp only [specTimestampValue]
      push_cast
      rw [va, vd, vg]
    · rw [timeToSeconds_timecode_val ha hb hd he hg hk h1 h2 h3]
      have va := digitsToNat2_q a b
      have vd := digitsToNat2_q d e
      have vg := digitsToNat2_q g k
      have vf := digitsToNat3_q f1 f2 f3
      simp only [specTimestampValue]
      push_cast
      rw [va, vd, vg, vf]
      ring_nf

/-- Witness for the amended timestamp claim at a concrete well-formed input
and a concrete field-count failure. -/
theorem c4_timeToSeconds_amended_witness :
    timeToSeconds ("00:01:02.500".toList) =
      .ok (some (specTimestampValue ("00:01:02.500".toList))) ∧
    (∃ err, timeToSeconds ("1:2".toList) = .error err) :=
  ⟨(c4_timeToSeconds_amended _).2 (by decide),
   (c4_timeToSeconds_amended _).1.mpr (by decide)⟩

/-- Counterexample to claim C4 as stated: `"a:b:c"` has three colon-separated
fields but is not of the form `HH:MM:SS[.mmm]`, yet `timeToSeconds` does not
fail on it — it returns NaN instead of throwing. -/
theorem c4_timeToSeconds_counterexample :
    wellFormedTimestamp ("a:b:c".toList) = false ∧
    timeToSeconds ("a:b:c".toList) = .ok none := by
  constructor
  · decide
  · simp +decide [timeToSeconds, jsSplit, consHead, parseIntJs, parseFloatJs,
      digitsPrefix, isJsWs, List.dropWhile, List.takeWhile, Char.isDigit, List.isEmpty]

/-! ### The normalizer -/

theorem subtitleLe_trans : ∀ a b c : Subtitle, subtitleLe a b → subtitleLe b c → subtitleLe a c := by
  intro a b c hab hbc
  simp only [subtitleLe, decide_eq_true_eq] at *
  exact le_trans hab hbc

theorem subtitleLe_total : ∀ a b : Subtitle, subtitleLe a b || subtitleLe b a := by
  intro a b
  simp only [subtitleLe, Bool.or_eq_true, decide_eq_true_eq]
  exact le_total a.start b.start

theorem dedupAux_duration :
    ∀ (l : List Subtitle) (seen : List (List Char × Int)) (e : Subtitle),
      e ∈ dedupAux l seen → (1 : ℚ) / 10 ≤ e.duration := by
  intro l
  induction l with
  | nil => intro seen e he; simp [dedupAux] at he
  | cons s rest ih =>
    intro seen e he
    rw [dedupAux] at he
    split at he
    · exact ih _ _ he
    · split at he
      · exact ih _ _ he
      · rename_i hdur _
        rcases List.mem_cons.mp he with rfl | hmem
        · exact le_of_not_lt hdur
        · exact ih _ _ hmem

theorem dedupAux_not_seen :
    ∀ (l : List Subtitle) (seen : List (List Char × Int)) (e : Subtitle),
      e ∈ dedupAux l seen → dedupKey e ∉ seen := by
  intro l
  induction l with
  | nil => intro seen e he; simp [dedupAux] at he
  | cons s rest ih =>
    intro seen e he
    rw [dedupAux] at he
    split at he
    · exact ih _ _ he
    · split at he
      · exact ih _ _ he
      · rename_i hkey
        rcases List.mem_cons.mp he with rfl | hmem
        · exact hkey
        · intro hin
          exact ih _ _ hmem (List.mem_cons_of_mem _ hin)

theorem dedupAux_pairwise :
    ∀ (l : List Subtitle) (seen : List (List Char × Int)),
      (dedupAux l seen).Pairwise (fun a b => dedupKey a ≠ dedupKey b) := by
  intro l
  induction l with
  | nil => intro seen; simp [dedupAux]
  | cons s rest ih =>
    intro seen
    rw [dedupAux]
    split
    · exact ih _
    · split
      · exact ih _
      · refine List.Pairwise.cons ?_ (ih _)
        intro e he heq
        exact dedupAux_not_seen _ _ _ he (heq ▸ List.mem_cons_self _ _)

theorem dedupAux_sublist :
    ∀ (l : List Subtitle) (seen : List (List Char × Int)), dedupAux l seen <+ l := by
  intro l
  induction l with
  | nil => intro seen; simp [dedupAux]
  | cons s rest ih =>
    intro seen
    rw [dedupAux]
    split
    · exact (ih _).cons _
    · split
      · exact (ih _).cons _
      · exact (ih _).cons₂ _

theorem dedupAux_find :
    ∀ (l : List Subtitle) (seen : List (List Char × Int)) (e : Subtitle),
      e ∈ dedupAux l seen →
      (l.filter durationOk).find? (fun s => dedupKey s = dedupKey e) = some e := by
  intro l
  induction l with
  | nil => intro seen e he; simp [dedupAux] at he
  | cons s rest ih =>
    intro seen e he
    rw [dedupAux] at he
    split at he
    · rename_i hdur
      rw [List.filter_cons_of_neg (by simpa [durationOk] using hdur)]
      exact ih _ _ he
    · rename_i hdur
      split at he
      · rename_i hseen
        rw [List.filter_cons_of_pos (by simpa [durationOk] using hdur)]
        rw [List.find?_cons_of_neg]
        · exact ih _ _ he
        · simp only [decide_eq_true_eq]
          intro heq
          exact dedupAux_not_seen _ _ _ he (heq ▸ hseen)
      · rename_i hseen
        rw [List.filter_cons_of_pos (by simpa [durationOk] using hdur)]
        rcases List.mem_cons.mp he with rfl | hmem
        · rw [List.find?_cons_of_pos]
          simp
        · rw [List.find?_cons_of_neg]
          · exact ih _ _ hmem
          · simp only [decide_eq_true_eq]
            intro heq
            exact dedupAux_not_seen _ _ _ hmem (heq ▸ List.mem_cons_self _ _)

theorem dedupKey_ne_symm : ∀ {a b : Subtitle},
    dedupKey a ≠ dedupKey b → dedupKey b ≠ dedupKey a :=
  fun h => fun he => h he.symm

/-- Claim C7: the output of `deduplicateAndFilter` has only entries of
duration at least 0.1; no two output entries share the deduplication key
`(text, floor(start * 10))`; each output entry is the first
duration-passing input entry with its key (first occurrence wins); the
output is sorted ascending by start time; and entries with equal start
times appear exactly in their pre-sort (input) relative order — the sort
is stable. -/
theorem c7_normalizer_invariants (xs : List Subtitle) :
    (∀ e ∈ deduplicateAndFilter xs, (1 : ℚ) / 10 ≤ e.duration) ∧
    (deduplicateAndFilter xs).Pairwise (fun a b => dedupKey a ≠ dedupKey b) ∧
    (∀ e ∈ deduplicateAndFilter xs,
      (xs.filter durationOk).find? (fun s => dedupKey s = dedupKey e) = some e) ∧
    (deduplicateAndFilter xs).Pairwise (fun a b => a.start ≤ b.start) ∧
    (∀ q : ℚ, (deduplicateAndFilter xs).filter (fun e => e.start = q) =
      (dedupAux xs []).filter (fun e => e.start = q)) := by
  have hperm : deduplicateAndFilter xs ~ dedupAux xs [] :=
    List.mergeSort_perm (dedupAux xs []) subtitleLe
  refine ⟨?_, ?_, ?_, ?_, ?_⟩
  · intro e he
    exact dedupAux_duration _ _ _ (hperm.mem_iff.mp he)
  · exact (hperm.pairwise_iff dedupKey_ne_symm).mpr (dedupAux_pairwise xs [])
  · intro e he
    exact dedupAux_find _ _ _ (hperm.mem_iff.mp he)
  · have hs := List.sorted_mergeSort subtitleLe_trans subtitleLe_total (dedupAux xs [])
    exact hs.imp (fun {a b} hab => by
      simpa [subtitleLe] using hab)
  · intro q
    have hB : (dedupAux xs []).filter (fun e => e.start = q) <+
        (dedupAux xs []).mergeSort subtitleLe := by
      apply List.sublist_mergeSort subtitleLe_trans subtitleLe_total
      · apply List.pairwise_of_forall_mem_list
        intro a ha b hb
        have ha' := (List.mem_filter.mp ha).2
        have hb' := (List.mem_filter.mp hb).2
        simp only [decide_eq_true_eq] at ha' hb'
        simp [subtitleLe, ha', hb']
      · exact List.filter_sublist _
    have hsub : (dedupAux xs []).filter (fun e => e.start = q) <+
        ((dedupAux xs []).mergeSort subtitleLe).filter (fun e => e.start = q) := by
      have := hB.filter (fun e => decide (e.start = q))
      rw [List.filter_filter] at this
      simpa only [Bool.and_self] using this
    have hlen : (((dedupAux xs []).mergeSort subtitleLe).filter
        (fun e => e.start = q)).length =
        ((dedupAux xs []).filter (fun e => e.start = q)).length :=
      (hperm.filter _).length_eq
    exact (hsub.eq_of_length hlen.symm).symm

theorem dedupAux_id :
    ∀ (l : List Subtitle) (seen : List (List Char × Int)),
      (∀ e ∈ l, (1 : ℚ) / 10 ≤ e.duration) →
      l.Pairwise (fun a b => dedupKey a ≠ dedupKey b) →
      (∀ e ∈ l, dedupKey e ∉ seen) →
      dedupAux l seen = l := by
  intro l
  induction l with
  | nil => intro seen _ _ _; rfl
  | cons s rest ih =>
    intro seen hdur hpair hseen
    rw [dedupAux]
    rw [if_neg (not_lt.mpr (hdur s (List.mem_cons_self _ _)))]
    rw [if_neg (hseen s (List.mem_cons_self _ _))]
    congr 1
    apply ih
    · intro e he; exact hdur e (List.mem_cons_of_mem _ he)
    · exact hpair.tail
    · intro e he
      intro hin
      rcases List.mem_cons.mp hin with heq | hin'
      · exact (List.pairwise_cons.mp hpair).1 e he heq.symm
      · exact hseen e (List.mem_cons_of_mem _ he) hin'

/-- Claim C10: the normalizer is idempotent — running
`deduplicateAndFilter` on its own output changes nothing: every entry
already passes the duration floor, all keys are distinct, and the list is
already sorted, so the stable sort leaves it unchanged. -/
theorem c10_normalizer_idempotent (xs : List Subtitle) :
    deduplicateAndFilter (deduplicateAndFilter xs) = deduplicateAndFilter xs := by
  obtain ⟨hdur, hpair, -, -, -⟩ := c7_normalizer_invariants xs
  rw [deduplicateAndFilter]
  rw [dedupAux_id _ _ hdur hpair (by intro e _; exact List.not_mem_nil _)]
  apply List.mergeSort_of_sorted
  exact List.sorted_mergeSort subtitleLe_trans subtitleLe_total (dedupAux xs [])

/-! ### The retrieval orchestrator -/

theorem filter_head?_eq_find? {α : Type} (p : α → Bool) :
    ∀ l : List α, (l.filter p).head? = l.find? p := by
  intro l
  induction l with
  | nil => rfl
  | cons a as ih =>
    by_cases hp : p a = true
    · simp [List.filter_cons, List.find?_cons, hp]
    · simp only [Bool.not_eq_true] at hp
      simp [List.filter_cons, List.find?_cons, hp, ih]

/-- Claim C1 (amended): a per-language retrieval attempt parses the first
WorkingArea file matching both the video id and the attempted language when
at least one such file exists; when none exists it falls back to the first
file matching the video id with a subtitle extension in *any* language — so
a file not matching the attempted language can be parsed.  The parser is
selected by the chosen file's extension. -/
theorem c1_file_selection_amended (videoId lang : List Char) (files : List (List Char)) :
    (selectSubtitleFile videoId lang files =
      ((files.find? (matchesLangFile videoId lang)).orElse
        (fun _ => files.find? (matchesAnyFile videoId)))) ∧
    (∀ f read, selectSubtitleFile videoId lang files = some f →
      fetchSubtitlesForLanguage videoId lang files read =
        parseByExtension videoId lang f (read f)) := by
  constructor
  · rw [selectSubtitleFile]
    rw [← filter_head?_eq_find? (matchesLangFile videoId lang) files]
    rw [← filter_head?_eq_find? (matchesAnyFile videoId) files]
    cases hf : files.filter (matchesLangFile videoId lang) with
    | cons f fs => rfl
    | nil =>
      cases hg : files.filter (matchesAnyFile videoId) with
      | cons g gs => rfl
      | nil => rfl
  · intro f read hsel
    rw [fetchSubtitlesForLanguage, hsel]

/-- Counterexample to claim C1 as stated: with the attempted language `"hi"`
and a WorkingArea holding only `"vid-en.vtt"` (which does not contain the
attempted language code), the fallback selects and parses that non-matching
file instead of failing. -/
theorem c1_file_selection_counterexample :
    containsSeq ("hi".toList) ("vid-en.vtt".toList) = false ∧
    matchesLangFile ("vid".toList) ("hi".toList) ("vid-en.vtt".toList) = false ∧
    selectSubtitleFile ("vid".toList) ("hi".toList) [("vid-en.vtt".toList)] =
      some ("vid-en.vtt".toList) ∧
    fetchSubtitlesForLanguage ("vid".toList) ("hi".toList) [("vid-en.vtt".toList)]
      (fun _ => []) = parseVTT [] :=
  ⟨by decide, by decide, by decide, rfl⟩

/-- Witness for the amended file-selection claim at a concrete matching
input. -/
theorem c1_file_selection_amended_witness :
    fetchSubtitlesForLanguage ("vid".toList) ("en".toList) [("vid-en.vtt".toList)]
      (fun _ => []) = parseByExtension ("vid".toList) ("en".toList)
        ("vid-en.vtt".toList) [] :=
  (c1_file_selection_amended ("vid".toList) ("en".toList) [("vid-en.vtt".toList)]).2
    ("vid-en.vtt".toList) (fun _ => []) (by decide)

theorem runFetchAux_shortCircuit
    (dl : List Char → Except SubErr (List Subtitle)) (post : List (List Char))
    (l : List Char) (subs : List Subtitle)
    (hl : dl l = .ok subs) (hne : subs ≠ []) :
    ∀ (pre : List (List Char)) (e0 : Option SubErr),
      (∀ l' ∈ pre, failsOrEmpty (dl l')) →
      (runFetchAux dl (pre ++ l :: post) e0).1 = some subs ∧
      (runFetchAux dl (pre ++ l :: post) e0).2.2 = pre ++ [l] := by
  intro pre
  induction pre with
  | nil =>
    intro e0 _
    simp only [List.nil_append, runFetchAux, hl]
    rw [if_pos (List.length_pos.mpr hne)]
    exact ⟨rfl, rfl⟩
  | cons p ps ih =>
    intro e0 hpre
    have hp : failsOrEmpty (dl p) := hpre p (List.mem_cons_self _ _)
    have hps : ∀ l' ∈ ps, failsOrEmpty (dl l') :=
      fun l' hl' => hpre l' (List.mem_cons_of_mem _ hl')
    cases hdp : dl p with
    | ok s =>
      have hs : s = [] := by rw [hdp] at hp; simpa [failsOrEmpty] using hp
      subst hs
      obtain ⟨h1, h2⟩ := ih e0 hps
      simp only [List.cons_append, runFetchAux, hdp]
      rw [if_neg (by simp)]
      cases hrun : runFetchAux dl (ps ++ l :: post) e0 with
      | mk r rest =>
        obtain ⟨e, inv⟩ := rest
        rw [hrun] at h1 h2
        simp only at h1 h2
        simp only [hrun]
        exact ⟨h1, by simp [h2]⟩
    | error err =>
      obtain ⟨h1, h2⟩ := ih (some err) hps
      simp only [List.cons_append, runFetchAux, hdp]
      cases hrun : runFetchAux dl (ps ++ l :: post) (some err) with
      | mk r rest =>
        obtain ⟨e, inv⟩ := rest
        rw [hrun] at h1 h2
        simp only at h1 h2
        simp only [hrun]
        exact ⟨h1, by simp [h2]⟩

/-- Claim C2: language candidates are attempted strictly in the given order;
the first candidate whose download yields a non-empty parsed list makes
`fetchSubtitles` return that result immediately, and the downloader is
invoked for no later candidate (the invocation list is exactly the failing
prefix plus the successful candidate). -/
theorem c2_short_circuit
    (dl : List Char → Except SubErr (List Subtitle)) (videoId : List Char)
    (pre post : List (List Char)) (l : List Char) (subs : List Subtitle)
    (hpre : ∀ l' ∈ pre, failsOrEmpty (dl l'))
    (hl : dl l = .ok subs) (hne : subs ≠ []) :
    retrieveModel dl videoId (pre ++ l :: post) = .ok subs ∧
    (runFetchAux dl (pre ++ l :: post) none).2.2 = pre ++ [l] := by
  obtain ⟨h1, h2⟩ := runFetchAux_shortCircuit dl post l subs hl hne pre none hpre
  refine ⟨?_, h2⟩
  rw [retrieveModel]
  cases hrun : runFetchAux dl (pre ++ l :: post) none with
  | mk r rest =>
    obtain ⟨e, inv⟩ := rest
    rw [hrun] at h1
    simp only at h1
    subst h1
    rfl

/-- Witness for the short-circuit claim: with a downloader failing for
`"xx"` and succeeding for `"en"`, the `"en"` result is returned and only
`["xx", "en"]` are invoked. -/
theorem c2_short_circuit_witness :
    retrieveModel
      (fun l => if l = ("xx".toList) then .error (.downloadFailed ("v".toList) l [])
        else .ok [Subtitle.mk ['a'] 1 1])
      ("v".toList) (["xx".toList, "en".toList]) = .ok [Subtitle.mk ['a'] 1 1] ∧
    (runFetchAux
      (fun l => if l = ("xx".toList) then .error (.downloadFailed ("v".toList) l [])
        else .ok [Subtitle.mk ['a'] 1 1])
      (["xx".toList, "en".toList]) none).2.2 = ["xx".toList, "en".toList] :=
  c2_short_circuit
    (fun l => if l = ("xx".toList) then .error (.downloadFailed ("v".toList) l [])
      else .ok [Subtitle.mk ['a'] 1 1])
    ("v".toList) ["xx".toList] [] ("en".toList) [Subtitle.mk ['a'] 1 1]
    (by
      intro l' hl'
      have : l' = ("xx".toList) := by simpa using hl'
      subst this
      trivial)
    rfl
    (by simp)

theorem runFetchAux_exhausted
    (dl : List Char → Except SubErr (List Subtitle)) :
    ∀ (langs : List (List Char)) (e0 : Option SubErr),
      (∀ l ∈ langs, failsOrEmpty (dl l)) →
      (runFetchAux dl langs e0).1 = none ∧
      (runFetchAux dl langs e0).2.2 = langs := by
  intro langs
  induction langs with
  | nil => intro e0 _; exact ⟨rfl, rfl⟩
  | cons p ps ih =>
    intro e0 hall
    have hp : failsOrEmpty (dl p) := hall p (List.mem_cons_self _ _)
    have hps : ∀ l' ∈ ps, failsOrEmpty (dl l') :=
      fun l' hl' => hall l' (List.mem_cons_of_mem _ hl')
    cases hdp : dl p with
    | ok s =>
      have hs : s = [] := by rw [hdp] at hp; simpa [failsOrEmpty] using hp
      subst hs
      obtain ⟨h1, h2⟩ := ih e0 hps
      simp only [runFetchAux, hdp]
      rw [if_neg (by simp)]
      cases hrun : runFetchAux dl ps e0 with
      | mk r rest =>
        obtain ⟨e, inv⟩ := rest
        rw [hrun] at h1 h2
        simp only at h1 h2
        simp only [hrun]
        exact ⟨h1, by simp [h2]⟩
    | error err =>
      obtain ⟨h1, h2⟩ := ih (some err) hps
      simp only [runFetchAux, hdp]
      cases hrun : runFetchAux dl ps (some err) with
      | mk r rest =>
        obtain ⟨e, inv⟩ := rest
        rw [hrun] at h1 h2
        simp only at h1 h2
        simp only [hrun]
        exact ⟨h1, by simp [h2]⟩

/-- Claim C3: when every candidate language fails (throws or yields an empty
list), `fetchSubtitles` fails with `NoSubtitlesFound` carrying the video id,
the full candidate list as the attempted languages, and the loop's last
recorded per-language error; moreover every candidate was invoked. -/
theorem c3_exhaustion
    (dl : List Char → Except SubErr (List Subtitle)) (videoId : List Char)
    (langs : List (List Char))
    (hall : ∀ l ∈ langs, failsOrEmpty (dl l)) :
    retrieveModel dl videoId langs =
      .error (.noSubtitlesFound videoId langs ((runFetchAux dl langs none).2.1)) ∧
    (runFetchAux dl langs none).2.2 = langs := by
  obtain ⟨h1, h2⟩ := runFetchAux_exhausted dl langs none hall
  refine ⟨?_, h2⟩
  rw [retrieveModel]
  cases hrun : runFetchAux dl langs none with
  | mk r rest =>
    obtain ⟨e, inv⟩ := rest
    rw [hrun] at h1
    simp only at h1
    subst h1
    rfl

/-- Witness for the exhaustion claim: for candidates `["xx", "yy"]` that both
fail, the error's attempted-languages component is exactly `["xx", "yy"]` and
the last error is the `"yy"` failure. -/
theorem c3_exhaustion_witness :
    retrieveModel (fun l => .error (.downloadFailed ("v".toList) l []))
      ("v".toList) (["xx".toList, "yy".toList]) =
      .error (.noSubtitlesFound ("v".toList) (["xx".toList, "yy".toList])
        (some (.downloadFailed ("v".toList) ("yy".toList) []))) :=
  (c3_exhaustion (fun l => .error (.downloadFailed ("v".toList) l []))
    ("v".toList) (["xx".toList, "yy".toList])
    (fun l _ => trivial)).1

/-- Witness for the normalizer-invariants claim at a one-entry input. -/
theorem c7_normalizer_invariants_witness :
    (1 : ℚ) / 10 ≤ (Subtitle.mk ['a'] 1 1).duration :=
  (c7_normalizer_invariants [Subtitle.mk ['a'] 1 1]).1 _ (by
    norm_num [deduplicateAndFilter, dedupAux])

/-! ### The WebVTT line scan -/

/-- Claim C5 (amended): inside the VTT line loop, a non-empty line that does
not start with `WEBVTT`, does not match the timing regex, *and does not
contain the substring `-->`*, is appended space-joined to the text
accumulator of the currently open caption block. -/
theorem c5_text_append_amended (cue : OpenCue) (acc : List Subtitle) (line : List Char)
    (hne : line ≠ []) (hh : startsWithWEBVTT line = false)
    (hm : vttTimeMatch line = none) (ha : containsArrow line = false) :
    vttStep (some cue, acc) line =
      .ok (some (OpenCue.mk cue.start cue.stop (joinSp cue.text line)), acc) := by
  rw [vttStep, if_neg (by simp [hh, hne])]
  simp only [hm]
  rw [if_pos (by simp [ha, hne])]

/-- Witness for the amended text-append claim at a concrete open block and
line. -/
theorem c5_text_append_amended_witness :
    vttStep (some (OpenCue.mk 0 1 ['t']), []) ("hi".toList) =
      .ok (some (OpenCue.mk 0 1 (joinSp ['t'] ("hi".toList))), []) :=
  c5_text_append_amended (OpenCue.mk 0 1 ['t']) [] ("hi".toList)
    (by decide) (by decide) (by decide) (by decide)

/-- Counterexample to claim C5 as stated: the line `"a --> b"` is non-empty,
is not the header, and does not match the timing regex, yet the scan leaves
the open block's accumulator unchanged (the code also requires the line not
to contain `-->`), and the claimed appended accumulator differs from the
actual one. -/
theorem c5_text_append_counterexample :
    ("a --> b".toList) ≠ [] ∧
    startsWithWEBVTT ("a --> b".toList) = false ∧
    vttTimeMatch ("a --> b".toList) = none ∧
    vttStep (some (OpenCue.mk 0 1 ['t']), []) ("a --> b".toList) =
      .ok (some (OpenCue.mk 0 1 ['t']), []) ∧
    joinSp ['t'] ("a --> b".toList) ≠ ['t'] :=
  ⟨by decide, by decide, by decide, rfl, by decide⟩

/-- Claim C6 (amended): when the line scan of `parseVTT` completes with an
open block whose stripped accumulated text is non-empty, that block is
flushed as the last entry of the raw sequence handed to the normalizer, even
when the file ends without a trailing blank line; it reaches the parser's
final output only if it additionally survives the duration filter and the
deduplication. -/
theorem c6_final_flush_amended (content : List Char) (cue : OpenCue) (acc : List Subtitle)
    (hscan : vttScan (none, []) ((jsSplit '\n' content).map trimChars) = .ok (some cue, acc))
    (htext : trimChars cue.text ≠ []) :
    parseVTTRaw content =
      .ok (acc ++ [Subtitle.mk (cleanSubtitleText (trimChars cue.text)) cue.start
        (cue.stop - cue.start)]) := by
  rw [parseVTTRaw, hscan]
  simp only [flushCue]
  rw [if_neg (by simpa using htext)]

theorem vttScanC6 :
    vttScan (none, [])
      ((jsSplit '\n' (("WEBVTT\n\n00:00:00.000 --> 00:00:00.050\nhi").toList)).map trimChars) =
      .ok (some (OpenCue.mk 0 (1 / 20) ("hi".toList)), []) := by
  have hL : (jsSplit '\n' (("WEBVTT\n\n00:00:00.000 --> 00:00:00.050\nhi").toList)).map trimChars =
      [("WEBVTT".toList), [], ("00:00:00.000 --> 00:00:00.050".toList), ("hi".toList)] := by
    decide
  rw [hL]
  have h1 : vttStep ((none : Option OpenCue), ([] : List Subtitle)) ("WEBVTT".toList) =
      .ok (none, []) := rfl
  have h2 : vttStep ((none : Option OpenCue), ([] : List Subtitle)) [] = .ok (none, []) := rfl
  have hm : vttTimeMatch ("00:00:00.000 --> 00:00:00.050".toList) =
      some (['0', '0', ':', '0', '0', ':', '0', '0', '.', '0', '0', '0'],
            ['0', '0', ':', '0', '0', ':', '0', '0', '.', '0', '5', '0']) := by decide
  have ht1 := @timeToSeconds_timecode_val '0' '0' '0' '0' '0' '0' '0' '0' '0'
    (by decide) (by decide) (by decide) (by decide) (by decide) (by decide)
    (by decide) (by decide) (by decide)
  have ht2 := @timeToSeconds_timecode_val '0' '0' '0' '0' '0' '0' '0' '5' '0'
    (by decide) (by decide) (by decide) (by decide) (by decide) (by decide)
    (by decide) (by decide) (by decide)
  have d2 : digitsToNat ['0', '0'] = 0 := by decide
  have d3 : digitsToNat ['0', '0', '0'] = 0 := by decide
  have d4 : digitsToNat ['0', '5', '0'] = 50 := by decide
  have h3 : vttStep ((none : Option OpenCue), ([] : List Subtitle))
      ("00:00:00.000 --> 00:00:00.050".toList) = .ok (some (OpenCue.mk 0 (1 / 20) []), []) := by
    rw [vttStep, if_neg (by decide)]
    simp only [hm, ht1, ht2, flushCue]
    norm_num [d2, d3, d4]
  have h4 : vttStep (some (OpenCue.mk 0 (1 / 20) []), ([] : List Subtitle)) ("hi".toList) =
      .ok (some (OpenCue.mk 0 (1 / 20) ("hi".toList)), []) := rfl
  simp only [vttScan, h1, h2, h3, h4]

/-- Witness for the amended final-flush claim: the scan of a file with no
trailing blank line ends with the open `"hi"` block, and that block is the
last entry of the raw sequence handed to the normalizer. -/
theorem c6_final_flush_amended_witness :
    parseVTTRaw (("WEBVTT\n\n00:00:00.000 --> 00:00:00.050\nhi").toList) =
      .ok ([] ++ [Subtitle.mk (cleanSubtitleText (trimChars ("hi".toList))) 0
        ((1 : ℚ) / 20 - 0)]) :=
  c6_final_flush_amended _ (OpenCue.mk 0 (1 / 20) ("hi".toList)) [] vttScanC6 (by decide)

/-- Counterexample to claim C6 as stated: the scan of
`"WEBVTT\n\n00:00:00.000 --> 00:00:00.050\nhi"` ends with an open block
whose stripped text `"hi"` is non-empty, yet `parseVTT` returns no entries at
all — the flushed block is discarded by the normalizer's duration floor, so
it does not appear in the parser's output. -/
theorem c6_final_flush_counterexample :
    vttScan (none, [])
      ((jsSplit '\n' (("WEBVTT\n\n00:00:00.000 --> 00:00:00.050\nhi").toList)).map trimChars) =
      .ok (some (OpenCue.mk 0 (1 / 20) ("hi".toList)), []) ∧
    trimChars ("hi".toList) ≠ [] ∧
    parseVTT (("WEBVTT\n\n00:00:00.000 --> 00:00:00.050\nhi").toList) = .ok [] := by
  refine ⟨vttScanC6, by decide, ?_⟩
  rw [parseVTT, parseVTTRaw, vttScanC6]
  simp only [flushCue]
  rw [if_neg (by decide)]
  simp only [Except.map, deduplicateAndFilter, List.nil_append]
  rw [dedupAux]
  rw [if_pos (by norm_num)]
  simp [dedupAux]

/-! ### The sanitizer: tag-freeness machinery -/

theorem pair_sublist_cons {c : Char} {t : List Char} (h : ['<', '>'] <+ c :: t) :
    ['<', '>'] <+ t ∨ (c = '<' ∧ '>' ∈ t) := by
  cases h with
  | cons _ h' => exact Or.inl h'
  | cons₂ _ h' => exact Or.inr ⟨rfl, List.singleton_sublist.mp h'⟩

theorem tagFree_of_sublist {l' l : List Char} (hsub : l' <+ l)
    (h : ¬ (['<', '>'] <+ l)) : ¬ (['<', '>'] <+ l') :=
  fun hp => h (hp.trans hsub)

theorem findGt_mem {l r : List Char} (h : findGt l = some r) : '>' ∈ l := by
  induction l with
  | nil => simp [findGt] at h
  | cons c rest ih =>
    rw [findGt] at h
    split at h
    · rename_i hc; exact hc ▸ List.mem_cons_self _ _
    · split at h
      · cases h
      · exact List.mem_cons_of_mem _ (ih h)

theorem findGt_suffix {l r : List Char} (h : findGt l = some r) : r <:+ l := by
  induction l with
  | nil => simp [findGt] at h
  | cons c rest ih =>
    rw [findGt] at h
    split at h
    · injection h with h; subst h; exact (List.suffix_cons_iff).mpr (Or.inr List.suffix_rfl)
    · split at h
      · cases h
      · exact ((ih h).trans (List.suffix_cons _ _))

theorem findGtAny_mem {l r : List Char} (h : findGtAny l = some r) : '>' ∈ l := by
  induction l with
  | nil => simp [findGtAny] at h
  | cons c rest ih =>
    rw [findGtAny] at h
    split at h
    · rename_i hc; exact hc ▸ List.mem_cons_self _ _
    · exact List.mem_cons_of_mem _ (ih h)

theorem findGtAny_suffix {l r : List Char} (h : findGtAny l = some r) : r <:+ l := by
  induction l with
  | nil => simp [findGtAny] at h
  | cons c rest ih =>
    rw [findGtAny] at h
    split at h
    · injection h with h; subst h; exact (List.suffix_cons_iff).mpr (Or.inr List.suffix_rfl)
    · exact ((ih h).trans (List.suffix_cons _ _))

theorem findGtAny_none {l : List Char} (h : findGtAny l = none) : '>' ∉ l := by
  induction l with
  | nil => simp
  | cons c rest ih =>
    rw [findGtAny] at h
    split at h
    · cases h
    · rename_i hc
      intro hmem
      rcases List.mem_cons.mp hmem with heq | hmem'
      · exact hc heq.symm
      · exact ih h hmem'

theorem voiceTagRest_mem {l r : List Char} (h : voiceTagRest l = some r) : '>' ∈ l := by
  rw [voiceTagRest] at h
  split at h
  · split at h
    · exact List.mem_of_mem_drop (findGt_mem h)
    · cases h
  · split at h
    · exact List.mem_of_mem_drop (findGt_mem h)
    · cases h

theorem voiceTagRest_sublist {l r : List Char} (h : voiceTagRest l = some r) : r <+ l := by
  rw [voiceTagRest] at h
  split at h
  · split at h
    · exact ((findGt_suffix h).sublist).trans (List.drop_sublist _ _)
    · cases h
  · split at h
    · exact ((findGt_suffix h).sublist).trans (List.drop_sublist _ _)
    · cases h

theorem isTsTag_pair {l : List Char} (h : isTsTag l = true) : ['<', '>'] <+ l := by
  rw [isTsTag] at h
  split at h
  · rename_i heq
    have hpre : l.take 14 <+ l := (List.take_prefix _ _).sublist
    rw [heq] at hpre
    refine List.Sublist.trans ?_ hpre
    refine List.Sublist.cons₂ _ ?_
    simp
  · cases h

theorem removeTimestampTags_sublist : ∀ l : List Char, removeTimestampTags l <+ l := by
  intro l
  induction l using removeTimestampTags.induct with
  | case1 => simp [removeTimestampTags]
  | case2 c rest h ih =>
    rw [removeTimestampTags, if_pos h]
    exact ih.trans (List.drop_sublist _ _)
  | case3 c rest h ih =>
    rw [removeTimestampTags, if_neg h]
    exact ih.cons₂ _

theorem removeVoiceTags_sublist : ∀ l : List Char, removeVoiceTags l <+ l := by
  intro l
  induction l using removeVoiceTags.induct with
  | case1 => simp [removeVoiceTags]
  | case2 rest r hr ih =>
    rw [removeVoiceTags, if_pos rfl]
    split
    · rename_i r' heq
      rw [heq] at hr
      injection hr with hr
      subst hr
      exact (ih.trans (voiceTagRest_sublist heq)).cons _
    · rename_i heq
      rw [heq] at hr
      cases hr
  | case3 rest hr ih =>
    rw [removeVoiceTags, if_pos rfl]
    split
    · rename_i r' heq
      rw [heq] at hr
      cases hr
    · exact ih.cons₂ _
  | case4 c rest hc ih =>
    rw [removeVoiceTags, if_neg hc]
    exact ih.cons₂ _

theorem removeOtherTags_sublist : ∀ l : List Char, removeOtherTags l <+ l := by
  intro l
  induction l using removeOtherTags.induct with
  | case1 => simp [removeOtherTags]
  | case2 rest r hr ih =>
    rw [removeOtherTags, if_pos rfl]
    split
    · rename_i r' heq
      rw [heq] at hr
      injection hr with hr
      subst hr
      exact (ih.trans (findGtAny_suffix heq).sublist).cons _
    · rename_i heq
      rw [heq] at hr
      cases hr
  | case3 rest hr ih =>
    rw [removeOtherTags, if_pos rfl]
    split
    · rename_i r' heq
      rw [heq] at hr
      cases hr
    · exact ih.cons₂ _
  | case4 c rest hc ih =>
    rw [removeOtherTags, if_neg hc]
    exact ih.cons₂ _

theorem removeOtherTags_tagFree : ∀ l : List Char, ¬ (['<', '>'] <+ removeOtherTags l) := by
  intro l
  induction l using removeOtherTags.induct with
  | case1 => simp [removeOtherTags]
  | case2 rest r hr ih =>
    rw [removeOtherTags, if_pos rfl]
    split
    · rename_i r' heq
      rw [heq] at hr
      injection hr with hr
      subst hr
      exact ih
    · rename_i heq
      rw [heq] at hr
      cases hr
  | case3 rest hr ih =>
    rw [removeOtherTags, if_pos rfl]
    split
    · rename_i r' heq
      rw [heq] at hr
      cases hr
    · intro hpair
      rcases pair_sublist_cons hpair with hp | ⟨-, hmem⟩
      · exact ih hp
      · exact findGtAny_none hr ((removeOtherTags_sublist rest).mem hmem)
  | case4 c rest hc ih =>
    rw [removeOtherTags, if_neg hc]
    intro hpair
    rcases pair_sublist_cons hpair with hp | ⟨heq, -⟩
    · exact ih hp
    · exact hc heq

theorem removeTimestampTags_of_tagFree :
    ∀ l : List Char, ¬ (['<', '>'] <+ l) → removeTimestampTags l = l := by
  intro l
  induction l using removeTimestampTags.induct with
  | case1 => intro _; simp [removeTimestampTags]
  | case2 c rest h ih =>
    intro htf
    exact absurd (isTsTag_pair h) htf
  | case3 c rest h ih =>
    intro htf
    rw [removeTimestampTags, if_neg h]
    rw [ih (tagFree_of_sublist (List.sublist_cons_self _ _) htf)]

theorem removeVoiceTags_of_tagFree :
    ∀ l : List Char, ¬ (['<', '>'] <+ l) → removeVoiceTags l = l := by
  intro l
  induction l using removeVoiceTags.induct with
  | case1 => intro _; simp [removeVoiceTags]
  | case2 rest r hr ih =>
    intro htf
    exfalso
    apply htf
    exact List.Sublist.cons₂ _ (List.singleton_sublist.mpr (voiceTagRest_mem hr))
  | case3 rest hr ih =>
    intro htf
    rw [removeVoiceTags, if_pos rfl]
    split
    · rename_i r' heq
      rw [heq] at hr
      cases hr
    · rw [ih (tagFree_of_sublist (List.sublist_cons_self _ _) htf)]
  | case4 c rest hc ih =>
    intro htf
    rw [removeVoiceTags, if_neg hc]
    rw [ih (tagFree_of_sublist (List.sublist_cons_self _ _) htf)]

theorem removeOtherTags_of_tagFree :
    ∀ l : List Char, ¬ (['<', '>'] <+ l) → removeOtherTags l = l := by
  intro l
  induction l using removeOtherTags.induct with
  | case1 => intro _; simp [removeOtherTags]
  | case2 rest r hr ih =>
    intro htf
    exfalso
    apply htf
    exact List.Sublist.cons₂ _ (List.singleton_sublist.mpr (findGtAny_mem hr))
  | case3 rest hr ih =>
    intro htf
    rw [removeOtherTags, if_pos rfl]
    split
    · rename_i r' heq
      rw [heq] at hr
      cases hr
    · rw [ih (tagFree_of_sublist (List.sublist_cons_self _ _) htf)]
  | case4 c rest hc ih =>
    intro htf
    rw [removeOtherTags, if_neg hc]
    rw [ih (tagFree_of_sublist (List.sublist_cons_self _ _) htf)]

theorem mem_collapseWs {x : Char} : ∀ l : List Char, x ∈ collapseWs l → x = ' ' ∨ x ∈ l := by
  intro l
  induction l using collapseWs.induct with
  | case1 => intro h; simp [collapseWs] at h
  | case2 c rest h ih =>
    rw [collapseWs, if_pos h]
    intro hmem
    rcases List.mem_cons.mp hmem with heq | hmem'
    · exact Or.inl heq
    · rcases ih hmem' with heq | hmem'' 
      · exact Or.inl heq
      · exact Or.inr (List.mem_cons_of_mem _ ((List.dropWhile_sublist _).mem hmem''))
  | case3 c rest h ih =>
    rw [collapseWs, if_neg h]
    intro hmem
    rcases List.mem_cons.mp hmem with heq | hmem'
    · exact Or.inr (heq ▸ List.mem_cons_self _ _)
    · rcases ih hmem' with heq | hmem''
      · exact Or.inl heq
      · exact Or.inr (List.mem_cons_of_mem _ hmem'')

theorem pair_sublist_collapseWs :
    ∀ l : List Char, ['<', '>'] <+ collapseWs l → ['<', '>'] <+ l := by
  intro l
  induction l using collapseWs.induct with
  | case1 => intro h; simpa [collapseWs] using h
  | case2 c rest h ih =>
    rw [collapseWs, if_pos h]
    intro hpair
    rcases pair_sublist_cons hpair with hp | ⟨heq, -⟩
    · exact ((ih hp).trans (List.dropWhile_sublist _)).cons _
    · cases heq
  | case3 c rest h ih =>
    rw [collapseWs, if_neg h]
    intro hpair
    rcases pair_sublist_cons hpair with hp | ⟨heq, hmem⟩
    · exact (ih hp).cons _
    · subst heq
      rcases mem_collapseWs _ hmem with heq | hmem'
      · cases heq
      · exact List.Sublist.cons₂ _ (List.singleton_sublist.mpr hmem')

/-! ### The sanitizer: whitespace machinery -/

theorem wsCollapsed_tail {c : Char} {rest : List Char}
    (h : wsCollapsed (c :: rest) = true) : wsCollapsed rest = true := by
  simp only [wsCollapsed, Bool.and_eq_true] at h
  exact h.2

theorem wsCollapsed_collapseWs : ∀ l : List Char, wsCollapsed (collapseWs l) = true := by
  intro l
  induction l using collapseWs.induct with
  | case1 => simp [collapseWs, wsCollapsed]
  | case2 c rest h ih =>
    rw [collapseWs, if_pos h]
    rw [wsCollapsed]
    simp only [Bool.and_eq_true]
    constructor
    · have hhead : (collapseWs (rest.dropWhile isJsWs)).head?.all (fun d => !isJsWs d) = true := by
        cases hdw : rest.dropWhile isJsWs with
        | nil => simp [collapseWs]
        | cons d ds =>
          have hd : isJsWs d = false := by
            have hw := List.head?_dropWhile_not isJsWs rest
            rw [hdw] at hw
            simpa using hw
          rw [collapseWs, if_neg (by simp [hd])]
          simp [hd]
      simp +decide [hhead]
    · exact ih
  | case3 c rest h ih =>
    rw [collapseWs, if_neg h]
    rw [wsCollapsed]
    simp only [Bool.and_eq_true]
    refine ⟨?_, ih⟩
    have hb : isJsWs c = false := by simpa using h
    simp [hb]

theorem collapseWs_of_wsCollapsed : ∀ l : List Char, wsCollapsed l = true → collapseWs l = l := by
  intro l
  induction l using collapseWs.induct with
  | case1 => intro _; simp [collapseWs]
  | case2 c rest h ih =>
    intro hw
    simp only [wsCollapsed, Bool.and_eq_true] at hw
    obtain ⟨hc, hrest⟩ := hw
    have hc' : c = ' ' ∧ rest.head?.all (fun d => !isJsWs d) = true := by
      rw [h] at hc
      simpa using hc
    obtain ⟨rfl, hall⟩ := hc'
    have hdw : rest.dropWhile isJsWs = rest := by
      cases rest with
      | nil => rfl
      | cons d ds =>
        have hd : isJsWs d = false := by simpa using hall
        simp [List.dropWhile_cons, hd]
    rw [hdw] at ih
    rw [collapseWs, if_pos h, hdw, ih hrest]
  | case3 c rest h ih =>
    intro hw
    simp only [wsCollapsed, Bool.and_eq_true] at hw
    rw [collapseWs, if_neg h, ih hw.2]

theorem wsCollapsed_suffix : ∀ {l' l : List Char}, l' <:+ l →
    wsCollapsed l = true → wsCollapsed l' = true := by
  intro l' l
  induction l with
  | nil =>
    intro hs _
    rw [List.suffix_nil.mp hs]
    rfl
  | cons c rest ih =>
    intro hs hw
    rcases List.suffix_cons_iff.mp hs with rfl | hs'
    · exact hw
    · exact ih hs' (wsCollapsed_tail hw)

theorem wsCollapsed_prefixOf : ∀ (l' l : List Char), l' <+: l →
    wsCollapsed l = true → wsCollapsed l' = true := by
  intro l'
  induction l' with
  | nil => intro l _ _; rfl
  | cons c t' ih =>
    intro l hpre hw
    obtain ⟨s, hs⟩ := hpre
    subst hs
    simp only [wsCollapsed, Bool.and_eq_true] at hw ⊢
    refine ⟨?_, ih (t' ++ s) ⟨s, rfl⟩ hw.2⟩
    cases t' with
    | nil =>
      cases hb : isJsWs c with
      | false => simp [hb]
      | true =>
        rw [hb] at hw
        have := hw.1
        simp at this
        simp [hb, this.1]
    | cons d ds => simpa using hw.1

theorem trimRight_prefixOf : ∀ l : List Char, trimRight l <+: l := by
  intro l
  induction l with
  | nil => exact List.prefix_rfl
  | cons c rest ih =>
    rw [trimRight]
    cases htr : trimRight rest with
    | nil =>
      by_cases hb : isJsWs c = true
      · simp [hb]
      · simp only [hb]
        exact ⟨rest, by simp⟩
    | cons d ds =>
      rw [htr] at ih
      obtain ⟨s, hs⟩ := ih
      refine ⟨s, ?_⟩
      show (c :: (d :: ds)) ++ s = c :: rest
      rw [List.cons_append, hs]

theorem trimRight_idem : ∀ l : List Char, trimRight (trimRight l) = trimRight l := by
  intro l
  induction l with
  | nil => rfl
  | cons c rest ih =>
    cases htr : trimRight rest with
    | nil =>
      rw [trimRight, htr]
      simp only []
      by_cases hb : isJsWs c = true
      · rw [if_pos hb]
        rfl
      · rw [if_neg hb]
        show (if isJsWs c = true then ([] : List Char) else [c]) = [c]
        rw [if_neg hb]
    | cons d ds =>
      rw [trimRight, htr]
      simp only []
      rw [htr] at ih
      rw [trimRight, ih]

theorem dropWhile_isJsWs_idem (l : List Char) :
    (l.dropWhile isJsWs).dropWhile isJsWs = l.dropWhile isJsWs := by
  cases h : l.dropWhile isJsWs with
  | nil => rfl
  | cons d ds =>
    have hd : isJsWs d = false := by
      have hw := List.head?_dropWhile_not isJsWs l
      rw [h] at hw
      simpa using hw
    simp [List.dropWhile_cons, hd]

theorem trimRight_dropWhile_comm : ∀ l : List Char,
    trimRight (l.dropWhile isJsWs) = (trimRight l).dropWhile isJsWs := by
  intro l
  induction l with
  | nil => rfl
  | cons c rest ih =>
    by_cases hb : isJsWs c = true
    · rw [List.dropWhile_cons, if_pos hb, ih]
      cases htr : trimRight rest with
      | nil => simp [trimRight, htr, hb]
      | cons d ds => simp [trimRight, htr, List.dropWhile_cons, hb]
    · rw [List.dropWhile_cons, if_neg hb]
      cases htr : trimRight rest with
      | nil => simp [trimRight, htr, hb, List.dropWhile_cons]
      | cons d ds => simp [trimRight, htr, hb, List.dropWhile_cons]

theorem trimChars_idem (l : List Char) : trimChars (trimChars l) = trimChars l := by
  rw [trimChars, trimChars, trimRight_dropWhile_comm, trimRight_idem, dropWhile_isJsWs_idem]

/-- Claim C8: the text sanitizer is idempotent — a second application of
`cleanSubtitleText` (timestamp-tag removal, voice/color-tag removal, generic
markup removal, whitespace collapsing, trimming) changes nothing: after one
pass no `<` is followed by a later `>` (so all three tag stages are the
identity) and the whitespace is already collapsed and trimmed. -/
theorem c8_sanitizer_idempotent (x : List Char) :
    cleanSubtitleText (cleanSubtitleText x) = cleanSubtitleText x := by
  have htf_m : ¬ (['<', '>'] <+
      removeOtherTags (removeVoiceTags (removeTimestampTags x))) :=
    removeOtherTags_tagFree _
  have htf_cw : ¬ (['<', '>'] <+
      collapseWs (removeOtherTags (removeVoiceTags (removeTimestampTags x)))) :=
    fun h => htf_m (pair_sublist_collapseWs _ h)
  have hsub_r : cleanSubtitleText x <+
      collapseWs (removeOtherTags (removeVoiceTags (removeTimestampTags x))) := by
    rw [cleanSubtitleText, trimChars]
    exact (List.dropWhile_sublist _).trans (trimRight_prefixOf _).sublist
  have htf_r : ¬ (['<', '>'] <+ cleanSubtitleText x) :=
    fun h => htf_cw (h.trans hsub_r)
  have hws_cw : wsCollapsed
      (collapseWs (removeOtherTags (removeVoiceTags (removeTimestampTags x)))) = true :=
    wsCollapsed_collapseWs _
  have hws_r : wsCollapsed (cleanSubtitleText x) = true := by
    rw [cleanSubtitleText, trimChars]
    exact wsCollapsed_suffix (List.dropWhile_suffix _)
      (wsCollapsed_prefixOf _ _ (trimRight_prefixOf _) hws_cw)
  calc cleanSubtitleText (cleanSubtitleText x)
      = trimChars (collapseWs (removeOtherTags (removeVoiceTags
          (removeTimestampTags (cleanSubtitleText x))))) := rfl
    _ = trimChars (collapseWs (cleanSubtitleText x)) := by
        rw [removeTimestampTags_of_tagFree _ htf_r, removeVoiceTags_of_tagFree _ htf_r,
          removeOtherTags_of_tagFree _ htf_r]
    _ = trimChars (cleanSubtitleText x) := by
        rw [collapseWs_of_wsCollapsed _ hws_r]
    _ = cleanSubtitleText x := by
        rw [cleanSubtitleText]
        exact trimChars_idem _
